import Mathlib

/-!
# Verification of the load-balancing simulation (`rrvsop/Simulation.py`)

Shallow embedding of the simulation core: the `Server` processing model
(modelled from the spec, since `Server.py` is not among the sources), the
four routing policies (`round_robin`, `weighted_round_robin`,
`least_connections`, `my_optimizer`) and the harness `run_simulation`,
all translated from `src/rrvsop/Simulation.py`.

Python floats (request sizes, bandwidths, latencies) are modelled as
rationals; real-time quantities (elapsed wall-clock time) are idealised
as cumulative latency, which no claim below depends on.
-/

/-- One completed-result record `(req_id, server_name, latency, time)`,
exactly the 4-tuples unpacked by `run_simulation`
(`for req_id, server_name, latency, time in result`). -/
structure ResultRec where
  req_id : Nat
  server_name : String
  latency : ℚ
  time : ℚ
deriving Repr, DecidableEq

/-- Modelled from the spec: the `Server` class of the missing `Server.py`.
Identity (`name`, `bandwidth`) is immutable; mutable run state is the FIFO
`pending_requests` queue of `(id, size)` pairs and the ordered `result`
history. -/
structure Server where
  name : String
  bandwidth : ℚ
  pending_requests : List (Nat × ℚ) := []
  result : List ResultRec := []
deriving Repr, DecidableEq

/-- Modelled from the spec: `Server.reset()` clears the pending queue and
the result history; identity is untouched. -/
def Server.reset (s : Server) : Server :=
  { s with pending_requests := [], result := [] }

/-- Modelled from the spec: `Server.receive_request(id, size)` enqueues
`(id, size)` onto the pending queue; it fails (`InvalidRequest`, here
`none`) exactly when `size ≤ 0`. -/
def Server.receive_request (s : Server) (id : Nat) (size : ℚ) : Option Server :=
  if size ≤ 0 then none
  else some { s with pending_requests := s.pending_requests ++ [(id, size)] }

/-- Modelled from the spec: the body of `Server.process` applied to a
queue — each request is dequeued in FIFO order, `latency = size / bandwidth`
is computed, and a result record is appended carrying the latency and the
elapsed time since this server began processing (idealised as the running
sum of latencies). -/
def processQueue (name : String) (bandwidth : ℚ) (t : ℚ) :
    List (Nat × ℚ) → List ResultRec
  | [] => []
  | (id, size) :: rest =>
    let latency := size / bandwidth
    ⟨id, name, latency, t + latency⟩ :: processQueue name bandwidth (t + latency) rest

/-- Modelled from the spec: the net effect of `Server.process(stopSignal)`
under drain-before-stop once the stop signal is raised after the last
enqueue — the worker drains its whole queue, appending one result record
per pending request, and exits with an empty queue. -/
def Server.process_drain (s : Server) : Server :=
  { s with pending_requests := [],
           result := s.result ++ processQueue s.name s.bandwidth 0 s.pending_requests }

/-- Modelled from the spec: `Server.estimate_latency()` returns
aggregate pending bytes / bandwidth. -/
def Server.estimate_latency (s : Server) : ℚ :=
  (s.pending_requests.map (fun p => p.2)).sum / s.bandwidth

/-- Modelled from the spec: `Server.total_requests` counts the result
history. -/
def Server.total_requests (s : Server) : Nat :=
  s.result.length

/-- Modelled from the spec: `Server.avg_latency()` averages result
latencies, returning 0 when no requests were processed. -/
def Server.avg_latency (s : Server) : ℚ :=
  if s.result.length = 0 then 0
  else (s.result.map ResultRec.latency).sum / s.result.length

/-- Modelled from the spec: `Server.avg_time()` averages result elapsed
times, returning 0 when no requests were processed. -/
def Server.avg_time (s : Server) : ℚ :=
  if s.result.length = 0 then 0
  else (s.result.map ResultRec.time).sum / s.result.length

/-- Python `int()` applied to an exact rational: truncation toward zero
(floor for non-negative values, ceiling for negative ones). -/
def pyInt (q : ℚ) : ℤ :=
  if 0 ≤ q then ⌊q⌋ else ⌈q⌉

/-- The loop body of `weighted_round_robin`'s construction
(`for i, w in enumerate(weights): weighted_list.extend([i] * int(w))`),
with `i` the running `enumerate` counter. -/
def weighted_list_from (i : Nat) : List Server → List Nat
  | [] => []
  | s :: rest => List.replicate (pyInt s.bandwidth).toNat i ++ weighted_list_from (i + 1) rest

/-- `weighted_round_robin`'s flattened selection sequence `weighted_list`:
server index `i` replicated `int(bandwidth_i)` times, in pool order. -/
def weighted_list (servers : List Server) : List Nat :=
  weighted_list_from 0 servers

/-- Python's `min(l, key=key)`: the first element of `l` attaining the
minimal key (`min` replaces its current best only on strictly smaller
keys), `none` on the empty list (Python raises `ValueError`). Stated as a
structural recursion: the first minimum of `a :: l` is the first minimum
of `l` if its key is strictly below `key a`, else `a`. -/
def pyArgminBy {α β : Type} [LinearOrder β] (key : α → β) :
    (l : List α) → Option (Fin l.length)
  | [] => none
  | a :: l =>
    match pyArgminBy key l with
    | none => some ⟨0, Nat.succ_pos _⟩
    | some j => if key (l.get j) < key a then some j.succ else some ⟨0, Nat.succ_pos _⟩

/-- `least_connections(servers)`: `min(servers, key=lambda s: len(s.pending_requests))`;
`none` models the `ValueError` Python's `min` raises on an empty pool. -/
def least_connections (servers : List Server) : Option Server :=
  (pyArgminBy (fun s => s.pending_requests.length) servers).map servers.get

/-- `my_optimizer(servers)`: `min(servers, key=lambda s: s.estimate_latency())`. -/
def my_optimizer (servers : List Server) : Option Server :=
  (pyArgminBy Server.estimate_latency servers).map servers.get

/-- The four registered routing algorithms. -/
inductive Algorithm
  | roundRobin
  | weightedRR
  | leastConn
  | optimized
deriving Repr, DecidableEq

/-- The module-level `algorithm_map` dictionary; an unregistered name
gives `none` (Python raises `KeyError` at the lookup). -/
def algorithm_map : String → Option Algorithm
  | "Round Robin" => some .roundRobin
  | "Weighted RR" => some .weightedRR
  | "Least Conn" => some .leastConn
  | "Optimized" => some .optimized
  | _ => none

/-- One call of the active policy's selection function, returning the index
of the chosen server in the pool (the source returns the server object and
mutates it in place; with immutable state we track its index):
`round_robin` returns `servers[rr_index mod len(servers)]` (ZeroDivisionError,
here `none`, on an empty pool); `weighted_round_robin` returns
`servers[weighted_list[idx mod len(weighted_list)]]` (ZeroDivisionError on an
empty `weighted_list`); the other two take Python's `min`. The counter is the
policy closure's internal call counter. -/
def selectIndex (alg : Algorithm) (servers : List Server) (counter : Nat) : Option Nat :=
  match alg with
  | .roundRobin =>
    if servers.length = 0 then none else some (counter % servers.length)
  | .weightedRR =>
    let wl := weighted_list servers
    if wl.length = 0 then none else wl.get? (counter % wl.length)
  | .leastConn =>
    (pyArgminBy (fun s => s.pending_requests.length) servers).map Fin.val
  | .optimized =>
    (pyArgminBy Server.estimate_latency servers).map Fin.val

/-- An error raised inside the `send_requests` dispatcher thread. Python's
threading machinery prints it and lets `join()` return normally, so it is
recorded rather than propagated. -/
inductive DispatchError
  | selectionFailed
  | invalidRequest
deriving Repr, DecidableEq

/-- The mutable state threaded through the dispatcher loop. -/
structure DispatchState where
  servers : List Server
  submitted : List (Nat × ℚ × Nat)
  counter : Nat
  error : Option DispatchError
deriving Repr, DecidableEq

/-- The `send_requests` dispatcher body: for each request size in order,
call the policy to select a server and call that server's
`receive_request(id+1, size)`. `submitted` records `(id, size, server index)`
per successful enqueue; the first error terminates the thread. -/
def send_requests_go (alg : Algorithm) (st : DispatchState) (reqId : Nat) :
    List ℚ → DispatchState
  | [] => st
  | size :: rest =>
    match selectIndex alg st.servers st.counter with
    | none => { st with error := some .selectionFailed }
    | some i =>
      match st.servers.get? i with
      | none => { st with error := some .selectionFailed }
      | some s =>
        match s.receive_request reqId size with
        | none => { st with error := some .invalidRequest }
        | some s₂ =>
          send_requests_go alg
            { servers := st.servers.set i s₂,
              submitted := st.submitted ++ [(reqId, size, i)],
              counter := st.counter + 1,
              error := none } (reqId + 1) rest

/-- Modelled from the spec: Jain's fairness index over per-server total
request counts, `(Σx)² / (n · Σx²)`, defined as 0 when all counts are 0
(equivalently, when their sum is 0). Part of the missing `Server.py`'s
`calculate_metrics`. -/
def jains_index (xs : List Nat) : ℚ :=
  if xs.sum = 0 then 0
  else ((xs.sum : ℚ)) ^ 2 / ((xs.length : ℚ) * (xs.map (fun x : Nat => (x : ℚ) ^ 2)).sum)

/-- The per-run metrics tuple `(average_latency, throughput, fairness_index)`. -/
structure Metrics where
  average_latency : ℚ
  throughput : ℚ
  fairness_index : ℚ
deriving Repr, DecidableEq

/-- Modelled from the spec: `calculate_metrics(servers)` from the missing
`Server.py` — mean latency over every individual result, throughput =
total requests / run duration (wall-clock duration idealised as the
largest per-server cumulative latency, workers running in parallel), and
Jain's fairness index over per-server totals. -/
def calculate_metrics (servers : List Server) : Metrics :=
  let lats := (servers.map (fun s => s.result.map ResultRec.latency)).flatten
  let total := (servers.map Server.total_requests).sum
  let duration := (servers.map (fun s => (s.result.map ResultRec.latency).sum)).foldr max 0
  { average_latency := if lats.length = 0 then 0 else lats.sum / lats.length,
    throughput := if duration = 0 then 0 else (total : ℚ) / duration,
    fairness_index := jains_index (servers.map Server.total_requests) }

/-- The error `run_simulation` can raise in the main thread: looking up an
unregistered algorithm name (Python's `KeyError` on `algorithm_map[algorithm]`). -/
inductive SimError
  | unknownPolicy
deriving Repr, DecidableEq

/-- Everything observable of one completed `run_simulation` call: the
post-run servers, the `(id, size, server index)` submission log of the
dispatcher, a dispatcher-thread error if one terminated it early
(swallowed by `threading`, so the run still completes), the policy
counter's final value, the metrics matrix, and the per-server summary
`(avg_latency, avg_time, total_requests)`. -/
structure RunOutcome where
  servers : List Server
  submitted : List (Nat × ℚ × Nat)
  dispatchError : Option DispatchError
  finalCounter : Nat
  matrix : Metrics
  summary : List (ℚ × ℚ × Nat)
deriving Repr, DecidableEq

/-- The phase of `run_simulation` after the policy lookup: reset every
server, run the dispatcher (`send_requests`), set the stop signal, let
every worker drain and exit, and aggregate. `counter₀` is the policy
closure's counter value entering the run (0 for a freshly constructed
policy; the closures are **not** reset by `Server.reset`). -/
def run_core (alg : Algorithm) (servers₀ : List Server) (request_sizes : List ℚ)
    (counter₀ : Nat) : RunOutcome :=
  let servers := servers₀.map Server.reset
  let st := send_requests_go alg ⟨servers, [], counter₀, none⟩ 1 request_sizes
  let final := st.servers.map Server.process_drain
  { servers := final,
    submitted := st.submitted,
    dispatchError := st.error,
    finalCounter := st.counter,
    matrix := calculate_metrics final,
    summary := final.map (fun s => (s.avg_latency, s.avg_time, s.total_requests)) }

/-- `run_simulation(servers, request_sizes, requests, algorithm)`: resolve
the algorithm name (a `KeyError` — `SimError.unknownPolicy` — propagates
from the main thread before anything else happens), then run one full
simulation. -/
def run_simulation (servers₀ : List Server) (request_sizes : List ℚ)
    (algorithm : String) (counter₀ : Nat) : Except SimError RunOutcome :=
  match algorithm_map algorithm with
  | none => .error .unknownPolicy
  | some alg => .ok (run_core alg servers₀ request_sizes counter₀)

/-- Observable lifecycle events of one `run_simulation` call, in program
order. -/
inductive Event
  | resetAll
  | workerStarted (i : Nat)
  | enqueue (id srv : Nat)
  | stopSet
  | workerJoined (i : Nat)
deriving Repr, DecidableEq

/-- The lifecycle event trace of `run_simulation`, following the statement
order of the source: reset all servers, start one worker per server, run
the dispatcher (one `enqueue` per successful `receive_request`), join the
dispatcher and set the stop signal, then join every worker. An unknown
algorithm name raises before any event. -/
def runTrace (servers₀ : List Server) (request_sizes : List ℚ)
    (algorithm : String) (counter₀ : Nat) : List Event :=
  match algorithm_map algorithm with
  | none => []
  | some alg =>
    let servers := servers₀.map Server.reset
    let st := send_requests_go alg ⟨servers, [], counter₀, none⟩ 1 request_sizes
    [.resetAll] ++ (List.range servers.length).map .workerStarted
      ++ st.submitted.map (fun r => .enqueue r.1 r.2.2)
      ++ [.stopSet]
      ++ (List.range servers.length).map .workerJoined

/-- The drain-guarantee shape of a run trace: the stop signal is set
exactly once, every enqueue precedes it, and every worker join follows it. -/
def traceOrdered (tr : List Event) : Prop :=
  ∃ pre post, tr = pre ++ [Event.stopSet] ++ post ∧
    Event.stopSet ∉ pre ∧ Event.stopSet ∉ post ∧
    (∀ e ∈ pre, ∀ i, e ≠ Event.workerJoined i) ∧
    (∀ e ∈ post, ∀ id srv, e ≠ Event.enqueue id srv)

/-- `round_robin`'s submission log shape: submitting with counter `c` and
next request id `r` over a size list assigns ids `r, r+1, …` and pool
indices `c % n, (c+1) % n, …`. -/
def rrExpected (c r n : Nat) : List ℚ → List (Nat × ℚ × Nat)
  | [] => []
  | sz :: rest => (r, sz, c % n) :: rrExpected (c + 1) (r + 1) n rest

/-- The pool index `weighted_round_robin` picks on its `k`-th call (0-based),
total version of `selectIndex .weightedRR` for a non-empty `weighted_list`. -/
def wrrPick (servers : List Server) (k : Nat) : Nat :=
  (weighted_list servers).getD (k % (weighted_list servers).length) 0

/-- C6's property: `least_connections` returns the server at some index `j`
whose pending-queue length is minimal over the pool, every earlier server
having a strictly longer queue. -/
def leastConnSpec (servers : List Server) : Prop :=
  ∃ j : Fin servers.length, least_connections servers = some (servers.get j) ∧
    (∀ i : Fin servers.length,
      (servers.get j).pending_requests.length ≤ (servers.get i).pending_requests.length) ∧
    (∀ i : Fin servers.length, i.val < j.val →
      (servers.get j).pending_requests.length < (servers.get i).pending_requests.length)

/-- C1's property of a run outcome: the per-server totals sum to the number
of submitted requests, and each submitted request id has exactly one result
record over all servers — one on the server the policy selected for it. -/
def noRequestLostOrDup (o : RunOutcome) : Prop :=
  (o.servers.map Server.total_requests).sum = o.submitted.length ∧
  ∀ r ∈ o.submitted,
    (o.servers.map (fun s => s.result.countP (fun rec => rec.req_id == r.1))).sum = 1 ∧
    ∃ s, o.servers.get? r.2.2 = some s ∧
      s.result.countP (fun rec => rec.req_id == r.1) = 1

/-- C3's property of a run outcome: every size was submitted and the `k`-th
submission (0-based) carries id `k+1` and pool index `k % n`, independently
of the request sizes. -/
def rrAssignSpec (pool : List Server) (sizes : List ℚ) (o : RunOutcome) : Prop :=
  o.submitted.length = sizes.length ∧
  ∀ k (hk : k < o.submitted.length),
    (o.submitted.get ⟨k, hk⟩).1 = k + 1 ∧
    (o.submitted.get ⟨k, hk⟩).2.2 = k % pool.length

/-- C5's property: `weighted_list` has length `Σ int(bandwidth_j)`, holds
index `i` exactly `int(bandwidth_i)` times, every window of that length in
the cyclic selection repeats those counts, `m` full cycles select `i`
exactly `m · int(bandwidth_i)` times, and an index whose bandwidth
truncates to 0 is never picked. -/
def wrrCycleSpec (servers : List Server) : Prop :=
  (weighted_list servers).length
      = (servers.map (fun s => (pyInt s.bandwidth).toNat)).sum ∧
  (∀ j (h : j < servers.length),
    (weighted_list servers).count j = (pyInt (servers.get ⟨j, h⟩).bandwidth).toNat) ∧
  (∀ k i, ((List.range (weighted_list servers).length).map
      (fun j => wrrPick servers (k + j))).count i = (weighted_list servers).count i) ∧
  (∀ m i, ((List.range (m * (weighted_list servers).length)).map
      (wrrPick servers)).count i = m * (weighted_list servers).count i) ∧
  (∀ j (h : j < servers.length), pyInt (servers.get ⟨j, h⟩).bandwidth = 0 →
    ∀ k, wrrPick servers k ≠ j)

/-- C8's property: the fairness index of the metrics is Jain's index over
per-server totals, strictly positive and at most 1 when at least one
request was processed, exactly 1 when every server has the same positive
total, and 0 when no request was processed. -/
def fairnessSpec (servers : List Server) : Prop :=
  (calculate_metrics servers).fairness_index
      = jains_index (servers.map Server.total_requests) ∧
  (0 < (servers.map Server.total_requests).sum →
    0 < (calculate_metrics servers).fairness_index ∧
    (calculate_metrics servers).fairness_index ≤ 1) ∧
  (∀ c, 0 < c → servers ≠ [] → (∀ s ∈ servers, s.total_requests = c) →
    (calculate_metrics servers).fairness_index = 1) ∧
  ((servers.map Server.total_requests).sum = 0 →
    (calculate_metrics servers).fairness_index = 0)

/-- A two-server demo pool (bandwidth 1 each) for concrete instantiations. -/
def pool2 : List Server := [⟨"Server1", 1, [], []⟩, ⟨"Server2", 1, [], []⟩]

/-- Three unit-size demo requests. -/
def sizes3 : List ℚ := [1, 1, 1]

/-- A demo pool whose only server has bandwidth 1/2, so `int(bandwidth) = 0`. -/
def halfBandwidthPool : List Server := [⟨"Slow", ⟨1, 2, by decide, by decide⟩, [], []⟩]

/-- A demo pool with bandwidths 2, 1 and 1/2 for the weighted-round-robin
cycle property. -/
def wrrDemoPool : List Server :=
  [⟨"A", 2, [], []⟩, ⟨"B", 1, [], []⟩, ⟨"C", ⟨1, 2, by decide, by decide⟩, [], []⟩]

/-- A demo pool with distinct queue lengths for `least_connections`. -/
def lcDemoPool : List Server :=
  [⟨"A", 1, [(1, 1), (2, 1)], []⟩, ⟨"B", 1, [(3, 1)], []⟩, ⟨"C", 1, [(4, 1)], []⟩]

/-- The concrete outcome of running `pool2`/`sizes3` under round-robin
from a fresh counter. -/
def c1demo : RunOutcome :=
  match run_simulation pool2 sizes3 "Round Robin" 0 with
  | .ok o => o
  | .error _ => ⟨[], [], none, 0, ⟨0, 0, 0⟩, []⟩

/-- The dispatcher loop invariant tying the current `DispatchState` to the
post-reset pool `orig`: lengths agree, every submission's server index is
in range, submitted ids are distinct and below the next id `r`, and each
server's pending queue is its original queue extended by exactly its own
submissions, identity and result history untouched. -/
def dispatchInv (orig : List Server) (st : DispatchState) (r : Nat) : Prop :=
  st.servers.length = orig.length ∧
  (∀ q ∈ st.submitted, q.2.2 < st.servers.length) ∧
  (st.submitted.map (fun q => q.1)).Nodup ∧
  (∀ x ∈ st.submitted.map (fun q => q.1), x < r) ∧
  (∀ j, j < orig.length →
    ∃ s₀ s, orig.get? j = some s₀ ∧ st.servers.get? j = some s ∧
      s.name = s₀.name ∧ s.bandwidth = s₀.bandwidth ∧ s.result = s₀.result ∧
      s.pending_requests = s₀.pending_requests
        ++ (st.submitted.filter (fun q => q.2.2 == j)).map (fun q => (q.1, q.2.1)))

theorem pyInt_eq_zero_of_lt_one {q : ℚ} (h0 : 0 ≤ q) (h1 : q < 1) : pyInt q = 0 := by
  unfold pyInt
  rw [if_pos h0]
  exact Int.floor_eq_zero_iff.mpr ⟨h0, h1⟩

theorem weighted_list_from_eq_nil {l : List Server}
    (h : ∀ s ∈ l, (pyInt s.bandwidth).toNat = 0) :
    ∀ i, weighted_list_from i l = [] := by
  induction l with
  | nil => intro i; rfl
  | cons a l ih =>
    intro i
    have ha : (pyInt a.bandwidth).toNat = 0 := h a (List.mem_cons_self a l)
    simp only [weighted_list_from, ha, List.replicate_zero, List.nil_append]
    exact ih (fun s hs => h s (List.mem_cons_of_mem a hs)) (i + 1)

/-- C10: if every server's bandwidth is non-negative and strictly below 1,
`weighted_round_robin` builds an empty `weighted_list` and its first
selection call fails (Python's `idx % len(weighted_list)` raises
`ZeroDivisionError`): pool non-emptiness alone does not make weighted
round-robin selection defined. -/
theorem weighted_rr_sub_one_bandwidths_undefined (servers : List Server)
    (hne : servers ≠ [])
    (h : ∀ s ∈ servers, 0 ≤ s.bandwidth ∧ s.bandwidth < 1) :
    weighted_list servers = [] ∧ selectIndex .weightedRR servers 0 = none := by
  have hwl : weighted_list servers = [] :=
    weighted_list_from_eq_nil
      (fun s hs => by rw [pyInt_eq_zero_of_lt_one (h s hs).1 (h s hs).2]; rfl) 0
  refine ⟨hwl, ?_⟩
  simp [selectIndex, hwl]

theorem weighted_rr_sub_one_bandwidths_undefined_witness :
    weighted_list halfBandwidthPool = [] ∧
    selectIndex .weightedRR halfBandwidthPool 0 = none :=
  weighted_rr_sub_one_bandwidths_undefined halfBandwidthPool
    (by decide) (by decide)

/-- C9: an algorithm name missing from `algorithm_map` makes
`run_simulation` fail with the lookup error in the main thread, with an
empty lifecycle trace — no server is reset, no worker starts, nothing is
dispatched, so all server state is untouched. -/
theorem unknown_policy_fails_before_run (pool : List Server) (sizes : List ℚ)
    (alg : String) (c₀ : Nat) (h : algorithm_map alg = none) :
    run_simulation pool sizes alg c₀ = .error .unknownPolicy ∧
    runTrace pool sizes alg c₀ = [] := by
  constructor
  · simp [run_simulation, h]
  · simp [runTrace, h]

theorem unknown_policy_fails_before_run_witness :
    run_simulation pool2 sizes3 "Optimizer X" 0 = .error .unknownPolicy ∧
    runTrace pool2 sizes3 "Optimizer X" 0 = [] :=
  unknown_policy_fails_before_run pool2 sizes3 "Optimizer X" 0 rfl

/-- C2: in every run whose algorithm name resolves, the lifecycle trace
splits around a single `stopSet` event: every enqueue performed by the
dispatcher precedes the stop signal, and every worker join follows it —
the stop signal is set only after the dispatcher's last `receive_request`
returned, and only then are the workers joined. -/
theorem stop_signal_after_last_enqueue (pool : List Server) (sizes : List ℚ)
    (alg : String) (c₀ : Nat) (a : Algorithm) (h : algorithm_map alg = some a) :
    traceOrdered (runTrace pool sizes alg c₀) := by
  refine ⟨[Event.resetAll]
      ++ (List.range (pool.map Server.reset).length).map Event.workerStarted
      ++ (send_requests_go a ⟨pool.map Server.reset, [], c₀, none⟩ 1 sizes).submitted.map
          (fun r => Event.enqueue r.1 r.2.2),
    (List.range (pool.map Server.reset).length).map Event.workerJoined,
    ?_, ?_, ?_, ?_, ?_⟩
  · simp only [runTrace, h, List.append_assoc]
  · intro hmem
    simp at hmem
  · intro hmem
    simp at hmem
  · intro e hmem i heq
    subst heq
    simp at hmem
  · intro e hmem id srv heq
    subst heq
    simp at hmem

theorem stop_signal_after_last_enqueue_witness :
    traceOrdered (runTrace pool2 sizes3 "Round Robin" 0) :=
  stop_signal_after_last_enqueue pool2 sizes3 "Round Robin" 0 .roundRobin rfl

/-- C4 (divergence witness): at the failing input — empty server pool, one
pending request — the harness does **not** fail with an empty-pool error:
the selection error occurs inside the dispatcher thread and is swallowed,
nothing is submitted, and `run_simulation` completes normally, returning
metrics over zero processed requests (fairness index 0). -/
theorem empty_pool_run_completes_normally :
    (run_simulation [] [(1000 : ℚ)] "Least Conn" 0).toOption.map
      (fun o => (o.dispatchError, o.submitted, o.servers)) =
      some (some DispatchError.selectionFailed, [], []) ∧
    (run_simulation [] [(1000 : ℚ)] "Least Conn" 0).toOption.map
      (fun o => o.matrix.fairness_index) = some 0 := by
  constructor
  · decide
  · decide

theorem pyArgminBy_eq_none_iff {α β : Type} [LinearOrder β] (key : α → β) :
    ∀ (l : List α), pyArgminBy key l = none ↔ l = [] := by
  intro l
  cases l with
  | nil => simp [pyArgminBy]
  | cons a l =>
    simp only [pyArgminBy]
    constructor
    · intro h
      split at h
      · exact Option.noConfusion h
      · split at h <;> exact Option.noConfusion h
    · intro h
      exact List.noConfusion h

theorem pyArgminBy_spec {α β : Type} [LinearOrder β] (key : α → β) :
    ∀ (l : List α) (j : Fin l.length), pyArgminBy key l = some j →
      (∀ i : Fin l.length, key (l.get j) ≤ key (l.get i)) ∧
      (∀ i : Fin l.length, i.val < j.val → key (l.get j) < key (l.get i)) := by
  intro l
  induction l with
  | nil => intro j _; exact absurd j.2 (by simp)
  | cons a l ih =>
    intro j h
    simp only [pyArgminBy] at h
    split at h
    case _ hrec =>
      have hl : l = [] := (pyArgminBy_eq_none_iff key l).mp hrec
      subst hl
      cases h
      constructor
      · intro i
        have hi : i = (⟨0, Nat.succ_pos _⟩ : Fin 1) := Fin.ext (Nat.lt_one_iff.mp i.2)
        rw [hi]
      · intro i hi
        exact absurd hi (by simp)
    case _ j' hrec =>
      obtain ⟨hmin, hfirst⟩ := ih j' hrec
      split at h
      case isTrue hlt =>
        cases h
        constructor
        · intro i
          cases i using Fin.cases with
          | zero => simpa using le_of_lt hlt
          | succ i' => simpa using hmin i'
        · intro i hi
          cases i using Fin.cases with
          | zero => simpa using hlt
          | succ i' =>
            have hi' : i'.val < j'.val := by simpa using hi
            simpa using hfirst i' hi'
      case isFalse hlt =>
        cases h
        push_neg at hlt
        constructor
        · intro i
          cases i using Fin.cases with
          | zero => simp
          | succ i' =>
            have hle : key a ≤ key (l.get i') := le_trans hlt (hmin i')
            simpa using hle
        · intro i hi
          exact absurd hi (by simp)

/-- C6: on a non-empty pool, `least_connections` returns a server whose
pending-queue length is the minimum over the pool at selection time, and
among the servers attaining that minimum it is the first in pool order
(每 earlier server has a strictly longer queue). -/
theorem least_connections_picks_first_min (servers : List Server)
    (hne : servers ≠ []) : leastConnSpec servers := by
  cases hsel : pyArgminBy (fun s => s.pending_requests.length) servers with
  | none =>
    exact absurd ((pyArgminBy_eq_none_iff _ servers).mp hsel) hne
  | some j =>
    obtain ⟨hmin, hfirst⟩ := pyArgminBy_spec _ servers j hsel
    exact ⟨j, by simp [least_connections, hsel], hmin, hfirst⟩

theorem least_connections_picks_first_min_witness : leastConnSpec lcDemoPool :=
  least_connections_picks_first_min lcDemoPool (by decide)

theorem weighted_list_from_mem {l : List Server} :
    ∀ k x, x ∈ weighted_list_from k l → k ≤ x ∧ x < k + l.length := by
  induction l with
  | nil => intro k x hx; exact absurd hx (by simp [weighted_list_from])
  | cons s l ih =>
    intro k x hx
    simp only [weighted_list_from, List.mem_append] at hx
    rcases hx with hx | hx
    · have hxk : x = k := List.eq_of_mem_replicate hx
      subst hxk
      refine ⟨le_refl x, ?_⟩
      simp only [List.length_cons]
      omega
    · obtain ⟨h1, h2⟩ := ih (k + 1) x hx
      refine ⟨by omega, ?_⟩
      simp only [List.length_cons]
      omega

theorem weighted_list_from_count_lt {l : List Server} :
    ∀ k i, i < k → (weighted_list_from k l).count i = 0 := by
  induction l with
  | nil => intro k i _; rfl
  | cons s l ih =>
    intro k i hik
    simp only [weighted_list_from, List.count_append, List.count_replicate]
    rw [if_neg (by simp only [beq_iff_eq]; omega : ¬(k == i) = true),
      ih (k + 1) i (by omega)]

theorem weighted_list_from_count_at {l : List Server} :
    ∀ k j (h : j < l.length),
      (weighted_list_from k l).count (k + j) = (pyInt (l.get ⟨j, h⟩).bandwidth).toNat := by
  induction l with
  | nil => intro k j h; exact absurd h (by simp)
  | cons s l ih =>
    intro k j h
    cases j with
    | zero =>
      simp only [weighted_list_from, List.count_append, List.count_replicate,
        Nat.add_zero, beq_self_eq_true, if_true]
      rw [weighted_list_from_count_lt (k + 1) k (by omega)]
      rfl
    | succ j' =>
      have hj' : j' < l.length := by
        simp only [List.length_cons] at h
        omega
      simp only [weighted_list_from, List.count_append, List.count_replicate]
      rw [if_neg (by simp only [beq_iff_eq]; omega : ¬(k == k + (j' + 1)) = true)]
      have harith : k + (j' + 1) = (k + 1) + j' := by omega
      rw [harith, ih (k + 1) j' hj']
      simp

theorem weighted_list_from_length {l : List Server} :
    ∀ k, (weighted_list_from k l).length
      = (l.map (fun s => (pyInt s.bandwidth).toNat)).sum := by
  induction l with
  | nil => intro k; rfl
  | cons s l ih =>
    intro k
    simp only [weighted_list_from, List.length_append, List.length_replicate,
      List.map_cons, List.sum_cons, ih (k + 1)]

theorem map_getD_range :
    ∀ (l : List Nat), (List.range l.length).map (fun j => l.getD j 0) = l := by
  intro l
  induction l with
  | nil => rfl
  | cons a l ih =>
    rw [List.length_cons, List.range_succ_eq_map, List.map_cons, List.map_map]
    have hfun : ((fun j => (a :: l).getD j 0) ∘ Nat.succ) = (fun j => l.getD j 0) :=
      funext fun j => by simp
    rw [hfun, ih]
    simp

theorem count_map_mod_succ (wl : List Nat) (M k i : Nat) (hM : wl.length = M + 1) :
    ((List.range wl.length).map (fun j => wl.getD ((k + 1 + j) % wl.length) 0)).count i
      = ((List.range wl.length).map (fun j => wl.getD ((k + j) % wl.length) 0)).count i := by
  have h1 : (List.range wl.length).map (fun j => wl.getD ((k + 1 + j) % wl.length) 0)
      = (List.range M).map (fun j => wl.getD ((k + 1 + j) % wl.length) 0)
        ++ [wl.getD (k % wl.length) 0] := by
    conv_lhs => rw [show List.range wl.length = List.range (M + 1) from by rw [hM],
      List.range_succ]
    rw [List.map_append, List.map_cons, List.map_nil]
    congr 2
    rw [show k + 1 + M = k + wl.length from by omega, Nat.add_mod_right]
  have h2 : (List.range wl.length).map (fun j => wl.getD ((k + j) % wl.length) 0)
      = wl.getD (k % wl.length) 0
        :: (List.range M).map (fun j => wl.getD ((k + 1 + j) % wl.length) 0) := by
    conv_lhs => rw [show List.range wl.length = List.range (M + 1) from by rw [hM],
      List.range_succ_eq_map]
    rw [List.map_cons, List.map_map]
    congr 1
    apply List.map_congr_left
    intro j hj
    simp only [Function.comp_apply]
    rw [show k + Nat.succ j = k + 1 + j from by omega]
  rw [h1, h2, List.count_append, List.count_cons]
  simp only [List.count_cons, List.count_nil]
  omega

theorem count_map_range_mod (wl : List Nat) (hL : 0 < wl.length) (i : Nat) :
    ∀ k, ((List.range wl.length).map (fun j => wl.getD ((k + j) % wl.length) 0)).count i
      = wl.count i := by
  intro k
  induction k with
  | zero =>
    have hcongr : ((List.range wl.length).map (fun j => wl.getD ((0 + j) % wl.length) 0))
        = (List.range wl.length).map (fun j => wl.getD j 0) := by
      apply List.map_congr_left
      intro j hj
      rw [Nat.zero_add, Nat.mod_eq_of_lt (List.mem_range.mp hj)]
    rw [hcongr, map_getD_range]
  | succ k ihk =>
    obtain ⟨M, hM⟩ : ∃ M, wl.length = M + 1 := ⟨wl.length - 1, by omega⟩
    rw [count_map_mod_succ wl M k i hM, ihk]

theorem wrrPick_mem (servers : List Server) (hL : 0 < (weighted_list servers).length)
    (k : Nat) : wrrPick servers k ∈ weighted_list servers := by
  unfold wrrPick
  rw [List.getD_eq_get _ _ (Nat.mod_lt _ hL)]
  exact List.get_mem _ _ _

/-- C5: with a positive truncated-bandwidth sum, the flattened sequence has
length `Σ int(bandwidth_j)` and holds index `i` exactly `int(bandwidth_i)`
times; every window of consecutive selections of that length selects index
`i` exactly `int(bandwidth_i)` times, `m` full cycles select it
`m · int(bandwidth_i)` times (long-run frequency
`int(bandwidth_i) / Σ int(bandwidth_j)`), and a server whose bandwidth
truncates to 0 is never selected. -/
theorem weighted_rr_cycle (servers : List Server)
    (hL : 0 < (weighted_list servers).length) : wrrCycleSpec servers := by
  have hcount : ∀ j (h : j < servers.length),
      (weighted_list servers).count j = (pyInt (servers.get ⟨j, h⟩).bandwidth).toNat := by
    intro j h
    have := weighted_list_from_count_at (l := servers) 0 j h
    rwa [Nat.zero_add] at this
  have hwindow : ∀ k i, ((List.range (weighted_list servers).length).map
      (fun j => wrrPick servers (k + j))).count i = (weighted_list servers).count i := by
    intro k i
    exact count_map_range_mod (weighted_list servers) hL i k
  refine ⟨weighted_list_from_length 0, hcount, hwindow, ?_, ?_⟩
  · intro m i
    induction m with
    | zero => simp
    | succ m ihm =>
      rw [show (m + 1) * (weighted_list servers).length
          = m * (weighted_list servers).length + (weighted_list servers).length from by ring,
        List.range_add, List.map_append, List.count_append, ihm, List.map_map]
      have : ((List.range (weighted_list servers).length).map
          (wrrPick servers ∘ fun x => m * (weighted_list servers).length + x)).count i
          = (weighted_list servers).count i := by
        simpa [Function.comp] using hwindow (m * (weighted_list servers).length) i
      rw [this]
      ring
  · intro j h hzero k hpick
    have hmem : j ∈ weighted_list servers := hpick ▸ wrrPick_mem servers hL k
    have : (weighted_list servers).count j = 0 := by
      rw [hcount j h, hzero]
      rfl
    exact absurd hmem (List.count_eq_zero.mp this)

theorem weighted_rr_cycle_witness : wrrCycleSpec wrrDemoPool :=
  weighted_rr_cycle wrrDemoPool (by decide)

theorem processQueue_length (name : String) (bw : ℚ) :
    ∀ (t : ℚ) (l : List (Nat × ℚ)), (processQueue name bw t l).length = l.length := by
  intro t l
  induction l generalizing t with
  | nil => rfl
  | cons q rest ih =>
    obtain ⟨id, size⟩ := q
    simp only [processQueue, List.length_cons, ih]

theorem processQueue_countP (name : String) (bw : ℚ) (id : Nat) :
    ∀ (t : ℚ) (l : List (Nat × ℚ)),
      (processQueue name bw t l).countP (fun rec => rec.req_id == id)
        = l.countP (fun q => q.1 == id) := by
  intro t l
  induction l generalizing t with
  | nil => rfl
  | cons q rest ih =>
    obtain ⟨qid, size⟩ := q
    simp only [processQueue, List.countP_cons, ih]

theorem selectIndex_lt {alg : Algorithm} {servers : List Server} {c i : Nat}
    (h : selectIndex alg servers c = some i) : i < servers.length := by
  cases alg with
  | roundRobin =>
    simp only [selectIndex] at h
    split at h
    · exact Option.noConfusion h
    · cases h
      exact Nat.mod_lt _ (by omega)
  | weightedRR =>
    simp only [selectIndex] at h
    split at h
    · exact Option.noConfusion h
    · have hmem : i ∈ weighted_list servers := List.get?_mem h
      have := weighted_list_from_mem 0 i hmem
      omega
  | leastConn =>
    simp only [selectIndex, Option.map_eq_some'] at h
    obtain ⟨j, -, rfl⟩ := h
    exact j.isLt
  | optimized =>
    simp only [selectIndex, Option.map_eq_some'] at h
    obtain ⟨j, -, rfl⟩ := h
    exact j.isLt

theorem sum_fin_ite_eq_one {n v : Nat} (hv : v < n) :
    (∑ j : Fin n, if v == j.val then 1 else 0) = 1 := by
  have hrw : (fun j : Fin n => if v == j.val then 1 else 0)
      = fun j : Fin n => if (⟨v, hv⟩ : Fin n) = j then 1 else 0 := by
    funext j
    congr 1
    simp [Fin.ext_iff, beq_iff_eq]
  rw [hrw, Finset.sum_ite_eq]
  simp

theorem sum_fin_countP (n : Nat) (p : Nat × ℚ × Nat → Bool) :
    ∀ (sub : List (Nat × ℚ × Nat)), (∀ q ∈ sub, q.2.2 < n) →
      (∑ j : Fin n, sub.countP (fun q => p q && (q.2.2 == j.val))) = sub.countP p := by
  intro sub
  induction sub with
  | nil => simp
  | cons q sub ih =>
    intro hb
    have hq : q.2.2 < n := hb q (List.mem_cons_self _ _)
    have ihs := ih (fun x hx => hb x (List.mem_cons_of_mem _ hx))
    simp only [List.countP_cons]
    rw [Finset.sum_add_distrib, ihs]
    congr 1
    by_cases hp : p q = true
    · simp only [hp, Bool.true_and]
      exact sum_fin_ite_eq_one hq
    · simp only [Bool.not_eq_true] at hp
      simp [hp]

theorem nat_countP_eq_one {l : List Nat} (h : l.Nodup) {a : Nat} (ha : a ∈ l) :
    l.countP (fun x => x == a) = 1 := by
  induction l with
  | nil => exact absurd ha (List.not_mem_nil a)
  | cons b l ih =>
    rw [List.nodup_cons] at h
    rw [List.countP_cons]
    rcases List.mem_cons.mp ha with rfl | hal
    · rw [if_pos (by simp)]
      have hzero : l.countP (fun x => x == a) = 0 := by
        rw [List.countP_eq_zero]
        intro x hx
        simp only [beq_iff_eq]
        intro hxa
        exact h.1 (hxa ▸ hx)
      omega
    · have hba : b ≠ a := fun hba => h.1 (hba ▸ hal)
      rw [if_neg (by simp [hba]), ih h.2 hal]

theorem dispatchInv_init (servers₀ : List Server) (c₀ : Nat) :
    dispatchInv (servers₀.map Server.reset)
      ⟨servers₀.map Server.reset, [], c₀, none⟩ 1 := by
  refine ⟨rfl, by simp, by simp, by simp, ?_⟩
  intro j hj
  obtain ⟨s, hs⟩ : ∃ s, (servers₀.map Server.reset).get? j = some s :=
    ⟨_, List.get?_eq_get hj⟩
  exact ⟨s, s, hs, hs, rfl, rfl, rfl, by simp⟩

theorem send_requests_go_inv (alg : Algorithm) (orig : List Server) :
    ∀ (sizes : List ℚ) (st : DispatchState) (r : Nat),
      dispatchInv orig st r →
      ∃ r', dispatchInv orig (send_requests_go alg st r sizes) r' ∧
        (send_requests_go alg st r sizes).servers.length = st.servers.length := by
  intro sizes
  induction sizes with
  | nil => intro st r h; exact ⟨r, h, rfl⟩
  | cons size rest ih =>
    intro st r h
    simp only [send_requests_go]
    split
    · exact ⟨r, h, rfl⟩
    case _ i hsel =>
      split
      · exact ⟨r, h, rfl⟩
      case _ s hget =>
        split
        · exact ⟨r, h, rfl⟩
        case _ s₂ hrecv =>
          have hi : i < st.servers.length := selectIndex_lt hsel
          have hs : s = st.servers.get ⟨i, hi⟩ := by
            rw [List.get?_eq_get hi] at hget
            exact (Option.some_injective _ hget).symm
          have hs₂ : s₂ = { s with pending_requests := s.pending_requests ++ [(r, size)] } := by
            simp only [Server.receive_request] at hrecv
            split at hrecv
            · exact Option.noConfusion hrecv
            · exact (Option.some_injective _ hrecv).symm
          obtain ⟨hlen, hidx, hnodup, hbound, hper⟩ := h
          have hstep : dispatchInv orig
              ⟨st.servers.set i s₂, st.submitted ++ [(r, size, i)], st.counter + 1, none⟩
              (r + 1) := by
            refine ⟨?_, ?_, ?_, ?_, ?_⟩
            · simpa using hlen
            · intro q hq
              simp only [List.length_set]
              rcases List.mem_append.mp hq with hq | hq
              · exact hidx q hq
              · rcases List.mem_singleton.mp hq with rfl
                exact hi
            · simp only [List.map_append, List.map_cons, List.map_nil]
              refine List.Nodup.append hnodup (List.nodup_singleton r) ?_
              intro x hx hx2
              rw [List.mem_singleton] at hx2
              subst hx2
              exact absurd (hbound x hx) (lt_irrefl x)
            · intro x hx
              simp only [List.map_append, List.map_cons, List.map_nil, List.mem_append,
                List.mem_singleton] at hx
              rcases hx with hx | hx
              · exact Nat.lt_succ_of_lt (hbound x hx)
              · omega
            · intro j hj
              obtain ⟨s₀, sj, hg0, hgj, hname, hbw, hres, hpend⟩ := hper j hj
              by_cases hji : i = j
              · subst hji
                have hsj : sj = s := by
                  rw [hget] at hgj
                  exact Option.some_injective _ hgj.symm
                refine ⟨s₀, s₂, hg0, ?_, ?_, ?_, ?_, ?_⟩
                · simp only [List.get?_set_eq, hget]
                  rfl
                · simp [hs₂]
                  rw [← hsj]
                  exact hname
                · simp [hs₂]
                  rw [← hsj]
                  exact hbw
                · simp [hs₂]
                  rw [← hsj]
                  exact hres
                · simp only [List.filter_append, List.map_append]
                  rw [show List.filter (fun q => q.2.2 == i) [(r, size, i)]
                      = [(r, size, i)] from by simp]
                  rw [hs₂]
                  simp only []
                  rw [← hsj, hpend]
                  simp
              · refine ⟨s₀, sj, hg0, ?_, hname, hbw, hres, ?_⟩
                · rw [List.get?_set_ne _ _ hji]
                  exact hgj
                · rw [List.filter_append,
                    show List.filter (fun q => q.2.2 == j) [(r, size, i)] = [] from by
                      simp [hji]]
                  simpa using hpend
          obtain ⟨r', hinv, hlen'⟩ := ih _ (r + 1) hstep
          exact ⟨r', hinv, by simpa using hlen'⟩

theorem send_state_spec (a : Algorithm) (pool : List Server) (sizes : List ℚ) (c₀ : Nat) :
    ∃ st, st = send_requests_go a ⟨pool.map Server.reset, [], c₀, none⟩ 1 sizes ∧
      st.servers.length = pool.length ∧
      (∀ q ∈ st.submitted, q.2.2 < st.servers.length) ∧
      (st.submitted.map (fun q => q.1)).Nodup ∧
      (∀ j, j < st.servers.length →
        ∃ p s, pool.get? j = some p ∧ st.servers.get? j = some s ∧
          s.name = p.name ∧ s.bandwidth = p.bandwidth ∧ s.result = [] ∧
          s.pending_requests
            = (st.submitted.filter (fun q => q.2.2 == j)).map (fun q => (q.1, q.2.1))) := by
  obtain ⟨r', hinv, -⟩ :=
    send_requests_go_inv a (pool.map Server.reset) sizes
      ⟨pool.map Server.reset, [], c₀, none⟩ 1 (dispatchInv_init pool c₀)
  obtain ⟨hlen, hidx, hnodup, -, hper⟩ := hinv
  refine ⟨_, rfl, by simpa using hlen, hidx, hnodup, ?_⟩
  intro j hj
  have hj' : j < (pool.map Server.reset).length := by rw [← hlen]; exact hj
  obtain ⟨s₀, s, hg0, hgj, hname, hbw, hres, hpend⟩ := hper j hj'
  rw [List.get?_map] at hg0
  obtain ⟨p, hp, hps⟩ := Option.map_eq_some'.mp hg0
  refine ⟨p, s, hp, hgj, ?_, ?_, ?_, ?_⟩
  · rw [hname, ← hps]
    rfl
  · rw [hbw, ← hps]
    rfl
  · rw [hres, ← hps]
    rfl
  · rw [hpend, ← hps]
    simp [Server.reset]

theorem run_core_servers (a : Algorithm) (pool : List Server) (sizes : List ℚ) (c₀ : Nat) :
    (run_core a pool sizes c₀).servers
      = (send_requests_go a ⟨pool.map Server.reset, [], c₀, none⟩ 1 sizes).servers.map
          Server.process_drain := rfl

theorem run_core_submitted (a : Algorithm) (pool : List Server) (sizes : List ℚ) (c₀ : Nat) :
    (run_core a pool sizes c₀).submitted
      = (send_requests_go a ⟨pool.map Server.reset, [], c₀, none⟩ 1 sizes).submitted := rfl

theorem list_map_sum_eq_fin_sum {α : Type} (l : List α) (f : α → Nat) :
    (l.map f).sum = ∑ j : Fin l.length, f (l.get j) := by
  conv_lhs => rw [← List.ofFn_get l]
  rw [List.map_ofFn, List.sum_ofFn]
  rfl

/-- C1: for every run of the harness on a non-empty pool that returns an
outcome, the per-server `total_requests` sum to exactly the number of
submitted requests, and every submitted request id yields exactly one
result record over all servers — located on the server the policy selected
for it: no request is lost or duplicated. -/
theorem run_conserves_requests (pool : List Server) (sizes : List ℚ) (alg : String)
    (c₀ : Nat) (o : RunOutcome) (hne : pool ≠ [])
    (h : run_simulation pool sizes alg c₀ = .ok o) : noRequestLostOrDup o := by
  unfold run_simulation at h
  cases halg : algorithm_map alg with
  | none => rw [halg] at h; exact Except.noConfusion h
  | some a =>
    rw [halg] at h
    cases h
    obtain ⟨st, hst, hlen, hidx, hnodup, hper⟩ := send_state_spec a pool sizes c₀
    have hget_st : ∀ j : Fin st.servers.length,
        ∃ p, pool.get? j.val = some p ∧
          (st.servers.get j).name = p.name ∧ (st.servers.get j).bandwidth = p.bandwidth ∧
          (st.servers.get j).result = [] ∧
          (st.servers.get j).pending_requests
            = (st.submitted.filter (fun q => q.2.2 == j.val)).map (fun q => (q.1, q.2.1)) := by
      intro j
      obtain ⟨p, s, hp, hgs, hn, hb, hr, hq⟩ := hper j.val j.isLt
      have hsj : st.servers.get j = s := by
        rw [List.get?_eq_get j.isLt] at hgs
        exact Option.some_injective _ hgs
      exact ⟨p, hp, by rw [hsj]; exact hn, by rw [hsj]; exact hb,
        by rw [hsj]; exact hr, by rw [hsj]; exact hq⟩
    have hdrain_total : ∀ j : Fin st.servers.length,
        (Server.total_requests ∘ Server.process_drain) (st.servers.get j)
          = st.submitted.countP (fun q => (fun _ => true) q && (q.2.2 == j.val)) := by
      intro j
      obtain ⟨p, -, -, -, hr, hq⟩ := hget_st j
      simp only [Function.comp_apply, Server.total_requests, Server.process_drain,
        List.length_append, hr, hq, processQueue_length, List.length_nil,
        List.length_map, Nat.zero_add]
      rw [← List.countP_eq_length_filter]
      simp
    have hdrain_countP : ∀ (id : Nat) (j : Fin st.servers.length),
        ((fun s => s.result.countP (fun rec => rec.req_id == id)) ∘ Server.process_drain)
            (st.servers.get j)
          = st.submitted.countP (fun q => (q.1 == id) && (q.2.2 == j.val)) := by
      intro id j
      obtain ⟨p, -, -, -, hr, hq⟩ := hget_st j
      simp only [Function.comp_apply, Server.process_drain, List.countP_append, hr, hq,
        List.countP_nil, Nat.zero_add]
      rw [processQueue_countP, List.countP_map, ← List.countP_filter]
      rfl
    constructor
    · -- totals
      rw [run_core_servers, ← hst, run_core_submitted, ← hst, List.map_map,
        list_map_sum_eq_fin_sum]
      rw [Finset.sum_congr rfl (fun j _ => hdrain_total j)]
      rw [sum_fin_countP st.servers.length (fun _ => true) st.submitted hidx]
      exact congrFun List.countP_true st.submitted
    · -- per-request records
      intro r hr
      rw [run_core_submitted, ← hst] at hr
      have hjr : r.2.2 < st.servers.length := hidx r hr
      have hone : st.submitted.countP (fun q => q.1 == r.1) = 1 := by
        have hmem : r.1 ∈ st.submitted.map (fun q => q.1) :=
          List.mem_map.mpr ⟨r, hr, rfl⟩
        have := nat_countP_eq_one hnodup hmem
        rwa [List.countP_map] at this
      constructor
      · rw [run_core_servers, ← hst, List.map_map, list_map_sum_eq_fin_sum]
        rw [Finset.sum_congr rfl (fun j _ => hdrain_countP r.1 j)]
        rw [sum_fin_countP st.servers.length (fun q => q.1 == r.1) st.submitted hidx]
        exact hone
      · refine ⟨Server.process_drain (st.servers.get ⟨r.2.2, hjr⟩), ?_, ?_⟩
        · rw [run_core_servers, ← hst, List.get?_map, List.get?_eq_get hjr]
          rfl
        · have hcp := hdrain_countP r.1 ⟨r.2.2, hjr⟩
          simp only [Function.comp_apply] at hcp
          rw [hcp]
          show st.submitted.countP (fun q => (q.1 == r.1) && (q.2.2 == r.2.2)) = 1
          refine le_antisymm ?_ ?_
          · calc st.submitted.countP (fun q => (q.1 == r.1) && (q.2.2 == r.2.2))
                ≤ st.submitted.countP (fun q => q.1 == r.1) :=
                  List.countP_mono_left (fun q _ hq => by
                    rw [Bool.and_eq_true] at hq
                    exact hq.1)
              _ = 1 := hone
          · have : 0 < st.submitted.countP (fun q => (q.1 == r.1) && (q.2.2 == r.2.2)) :=
              List.countP_pos.mpr ⟨r, hr, by simp⟩
            omega

theorem run_conserves_requests_witness : pool2 ≠ [] ∧ noRequestLostOrDup c1demo :=
  ⟨by decide,
    run_conserves_requests pool2 sizes3 "Round Robin" 0 c1demo (by decide) rfl⟩

theorem rrExpected_length (c r n : Nat) :
    ∀ sizes : List ℚ, (rrExpected c r n sizes).length = sizes.length := by
  intro sizes
  induction sizes generalizing c r with
  | nil => rfl
  | cons size rest ih => simp only [rrExpected, List.length_cons, ih]

theorem rrExpected_get :
    ∀ (sizes : List ℚ) (c r n k : Nat) (hk : k < (rrExpected c r n sizes).length),
      ((rrExpected c r n sizes).get ⟨k, hk⟩).1 = r + k ∧
      ((rrExpected c r n sizes).get ⟨k, hk⟩).2.2 = (c + k) % n := by
  intro sizes
  induction sizes with
  | nil => intro c r n k hk; exact absurd hk (by simp [rrExpected])
  | cons size rest ih =>
    intro c r n k hk
    cases k with
    | zero => simp [rrExpected]
    | succ k' =>
      have hk' : k' < (rrExpected (c + 1) (r + 1) n rest).length := by
        simpa [rrExpected] using hk
      obtain ⟨h1, h2⟩ := ih (c + 1) (r + 1) n k' hk'
      constructor
      · show ((rrExpected (c + 1) (r + 1) n rest).get ⟨k', hk'⟩).1 = r + (k' + 1)
        omega
      · show ((rrExpected (c + 1) (r + 1) n rest).get ⟨k', hk'⟩).2.2 = (c + (k' + 1)) % n
        rw [h2, show c + 1 + k' = c + (k' + 1) from by omega]

theorem send_rr_submitted (n : Nat) :
    ∀ (sizes : List ℚ) (st : DispatchState) (r : Nat),
      st.servers.length = n → 0 < n → (∀ x ∈ sizes, 0 < x) →
      (send_requests_go .roundRobin st r sizes).submitted
        = st.submitted ++ rrExpected st.counter r n sizes := by
  intro sizes
  induction sizes with
  | nil => intro st r _ _ _; simp [send_requests_go, rrExpected]
  | cons size rest ih =>
    intro st r hn hpos hsz
    have hsel : selectIndex .roundRobin st.servers st.counter
        = some (st.counter % n) := by
      simp only [selectIndex, hn]
      rw [if_neg (by omega)]
    have hmod : st.counter % n < st.servers.length := by
      rw [hn]
      exact Nat.mod_lt _ hpos
    have hget : st.servers.get? (st.counter % n)
        = some (st.servers.get ⟨st.counter % n, hmod⟩) := List.get?_eq_get hmod
    have hrecv : (st.servers.get ⟨st.counter % n, hmod⟩).receive_request r size
        = some { st.servers.get ⟨st.counter % n, hmod⟩ with
            pending_requests :=
              (st.servers.get ⟨st.counter % n, hmod⟩).pending_requests ++ [(r, size)] } := by
      have : ¬size ≤ 0 := not_le.mpr (hsz size (List.mem_cons_self _ _))
      simp [Server.receive_request, this]
    simp only [send_requests_go, hsel, hget, hrecv]
    rw [ih _ (r + 1) (by simpa using hn) hpos
      (fun x hx => hsz x (List.mem_cons_of_mem _ hx))]
    simp only [rrExpected, List.append_assoc, List.singleton_append]

/-- C3: under round-robin from a fresh counter, every request is submitted
and the `k`-th submission (0-based) carries request id `k+1` and goes to
pool index `k mod n`, for any request sizes (all positive) — the
assignment is independent of the sizes. -/
theorem round_robin_assigns_mod (pool : List Server) (sizes : List ℚ) (o : RunOutcome)
    (hne : pool ≠ []) (hpos : ∀ x ∈ sizes, 0 < x)
    (h : run_simulation pool sizes "Round Robin" 0 = .ok o) :
    rrAssignSpec pool sizes o := by
  unfold run_simulation at h
  rw [show algorithm_map "Round Robin" = some Algorithm.roundRobin from rfl] at h
  cases h
  have hn : 0 < pool.length := List.length_pos.mpr hne
  have hsub : (run_core Algorithm.roundRobin pool sizes 0).submitted
      = rrExpected 0 1 pool.length sizes := by
    rw [run_core_submitted]
    have := send_rr_submitted pool.length sizes
      ⟨pool.map Server.reset, [], 0, none⟩ 1 (by simp) hn hpos
    simpa using this
  unfold rrAssignSpec
  rw [hsub]
  refine ⟨rrExpected_length 0 1 pool.length sizes, ?_⟩
  intro k hk
  obtain ⟨h1, h2⟩ := rrExpected_get sizes 0 1 pool.length k hk
  constructor
  · omega
  · rw [h2, Nat.zero_add]

theorem round_robin_assigns_mod_witness : rrAssignSpec pool2 sizes3 c1demo :=
  round_robin_assigns_mod pool2 sizes3 c1demo (by decide) (by decide) rfl

/-- C7 (counterexample): with the same live policy instance — whose
internal counter `reset()` does not restart — two consecutive round-robin
runs over the same pool and sizes give different per-server totals:
`[2, 1]` in the first run, `[1, 2]` in the second. -/
theorem same_policy_instance_rerun_differs :
    ((run_simulation pool2 sizes3 "Round Robin" 0).toOption.map
        (fun o => o.servers.map Server.total_requests)) = some [2, 1] ∧
    (((run_simulation pool2 sizes3 "Round Robin" 0).toOption.bind
        (fun o1 => (run_simulation o1.servers sizes3 "Round Robin" o1.finalCounter).toOption)).map
        (fun o2 => o2.servers.map Server.total_requests)) = some [1, 2] ∧
    (some [2, 1] : Option (List Nat)) ≠ some [1, 2] := by
  refine ⟨by decide, by decide, by decide⟩

theorem run_core_congr (a : Algorithm) {l₁ l₂ : List Server} (sizes : List ℚ) (c₀ : Nat)
    (h : l₁.map Server.reset = l₂.map Server.reset) :
    run_core a l₁ sizes c₀ = run_core a l₂ sizes c₀ := by
  unfold run_core
  rw [h]

/-- C7 (amended): rerunning on the post-run servers with the policy
counter restarted at the same initial value (a freshly constructed policy
instance) reproduces the first run's outcome exactly — in particular the
same per-server total request counts. With the same live instance the
counter persists, and the totals may differ (see the counterexample). -/
theorem rerun_with_restarted_counter_reproduces (pool : List Server) (sizes : List ℚ)
    (alg : String) (c₀ : Nat) (o : RunOutcome)
    (h : run_simulation pool sizes alg c₀ = .ok o) :
    run_simulation o.servers sizes alg c₀ = .ok o := by
  unfold run_simulation at h ⊢
  cases halg : algorithm_map alg with
  | none => rw [halg] at h; exact Except.noConfusion h
  | some a =>
    rw [halg] at h
    cases h
    have hreset : (run_core a pool sizes c₀).servers.map Server.reset
        = pool.map Server.reset := by
      obtain ⟨st, hst, hlen, -, -, hper⟩ := send_state_spec a pool sizes c₀
      rw [run_core_servers, ← hst, List.map_map]
      apply List.ext_get?
      intro j
      rw [List.get?_map, List.get?_map]
      by_cases hj : j < st.servers.length
      · obtain ⟨p, s, hp, hgs, hn, hb, -, -⟩ := hper j hj
        rw [hgs, hp]
        simp only [Option.map_some']
        congr 1
        simp [Server.reset, Server.process_drain, Function.comp_apply, hn, hb]
      · rw [List.get?_eq_none.mpr (by omega),
          List.get?_eq_none.mpr (by omega)]
        rfl
    show Except.ok (run_core a (run_core a pool sizes c₀).servers sizes c₀)
        = Except.ok (run_core a pool sizes c₀)
    rw [run_core_congr a sizes c₀ hreset]

theorem rerun_with_restarted_counter_reproduces_witness :
    run_simulation c1demo.servers sizes3 "Round Robin" 0 = .ok c1demo :=
  rerun_with_restarted_counter_reproduces pool2 sizes3 "Round Robin" 0 c1demo rfl

theorem two_mul_sum_le (a : ℚ) :
    ∀ l : List ℚ, 2 * a * l.sum ≤ (l.length : ℚ) * a ^ 2 + (l.map (fun x => x ^ 2)).sum := by
  intro l
  induction l with
  | nil => simp
  | cons x l ih =>
    simp only [List.sum_cons, List.map_cons, List.length_cons]
    push_cast
    nlinarith [ih, two_mul_le_add_sq a x]

theorem list_sq_sum_le_mul (l : List ℚ) :
    l.sum ^ 2 ≤ (l.length : ℚ) * (l.map (fun x => x ^ 2)).sum := by
  induction l with
  | nil => simp
  | cons x l ih =>
    simp only [List.sum_cons, List.map_cons, List.length_cons]
    push_cast
    nlinarith [ih, two_mul_sum_le x l]

theorem jains_index_pos_le_one {xs : List Nat} (hsum : 0 < xs.sum) :
    0 < jains_index xs ∧ jains_index xs ≤ 1 := by
  have hne : ¬xs.sum = 0 := by omega
  unfold jains_index
  rw [if_neg hne]
  have hlen : 0 < xs.length := by
    cases xs with
    | nil => simp at hsum
    | cons => simp
  have hsq : (0 : ℚ) < (xs.length : ℚ) * (xs.map (fun x : Nat => (x : ℚ) ^ 2)).sum := by
    apply mul_pos
    · exact_mod_cast hlen
    · obtain ⟨x, hx, hxpos⟩ : ∃ x ∈ xs, 0 < x := by
        by_contra hcon
        push_neg at hcon
        have h0 : xs.sum = 0 := List.sum_eq_zero (fun y hy => by
          have := hcon y hy
          omega)
        omega
      calc (0 : ℚ) < (x : ℚ) ^ 2 := pow_pos (by exact_mod_cast hxpos) 2
        _ ≤ (xs.map (fun x : Nat => (x : ℚ) ^ 2)).sum := by
          apply List.single_le_sum
          · intro y hy
            obtain ⟨z, -, rfl⟩ := List.mem_map.mp hy
            exact sq_nonneg _
          · exact List.mem_map.mpr ⟨x, hx, rfl⟩
  constructor
  · apply div_pos
    · exact pow_pos (by exact_mod_cast hsum) 2
    · exact hsq
  · rw [div_le_one hsq]
    have hcs := list_sq_sum_le_mul (xs.map (fun x : Nat => (x : ℚ)))
    rw [List.length_map, List.map_map] at hcs
    rw [show ((xs.sum : ℚ)) = (xs.map (fun x : Nat => (x : ℚ))).sum from by
      rw [Nat.cast_list_sum]]
    exact hcs

theorem jains_index_eq_one {xs : List Nat} (hne : xs ≠ []) {c : Nat} (hc : 0 < c)
    (hall : ∀ x ∈ xs, x = c) : jains_index xs = 1 := by
  have hsum : xs.sum = xs.length * c := by
    have := List.sum_eq_card_nsmul xs c hall
    simpa [smul_eq_mul] using this
  have hlen : 0 < xs.length := List.length_pos.mpr hne
  have hsumpos : ¬xs.sum = 0 := by
    rw [hsum]
    have := Nat.mul_pos hlen hc
    omega
  unfold jains_index
  rw [if_neg hsumpos]
  have hsq : (xs.map (fun x : Nat => (x : ℚ) ^ 2)).sum = (xs.length : ℚ) * (c : ℚ) ^ 2 := by
    have hall2 : ∀ y ∈ xs.map (fun x : Nat => (x : ℚ) ^ 2), y = (c : ℚ) ^ 2 := by
      intro y hy
      obtain ⟨x, hx, rfl⟩ := List.mem_map.mp hy
      rw [hall x hx]
    have := List.sum_eq_card_nsmul _ _ hall2
    simpa [smul_eq_mul, List.length_map] using this
  rw [hsq, hsum]
  have hl0 : ((xs.length : ℚ)) ≠ 0 := by
    exact_mod_cast Nat.pos_iff_ne_zero.mp hlen
  have hc0 : ((c : ℚ)) ≠ 0 := by
    exact_mod_cast Nat.pos_iff_ne_zero.mp hc
  push_cast
  field_simp
  ring

theorem jains_index_of_zero {xs : List Nat} (h : xs.sum = 0) : jains_index xs = 0 := by
  unfold jains_index
  rw [if_pos h]

/-- C8: the run's fairness index is Jain's index `(Σx)² / (n·Σx²)` over
per-server total request counts; it is in `(0, 1]` whenever at least one
request was processed, exactly 1 when all servers processed the same
positive count, and 0 when no request was processed. -/
theorem fairness_index_jain (servers : List Server) : fairnessSpec servers := by
  unfold fairnessSpec
  refine ⟨rfl, ?_, ?_, ?_⟩
  · intro hs
    exact jains_index_pos_le_one hs
  · intro c hc hne hall
    show jains_index (servers.map Server.total_requests) = 1
    apply jains_index_eq_one
    · intro hmap
      exact hne (List.map_eq_nil.mp hmap)
    · exact hc
    · intro x hx
      obtain ⟨s, hs, rfl⟩ := List.mem_map.mp hx
      exact hall s hs
  · intro hz
    show jains_index (servers.map Server.total_requests) = 0
    exact jains_index_of_zero hz
